import Mathlib

/-!
Verification of the core grid routines of `ApertureMapModelTools/__core__.py`:
cell-interface topology, weighted adjacency assembly, point-data
interpolation, percentile queries, thresholding and row/column extraction.
Grid values are modelled as rationals, machine loops as structural recursion
over explicit index lists, and Python exceptions as an explicit error type.
-/

/-- Model of Python `range(a, b, s)` for nonnegative `a`, `b` and step `s`:
the arithmetic progression `a, a+s, a+2*s, ...` of all values strictly below
`b` (empty when `s = 0`, which never occurs in the translated code). -/
def pyRange (a b s : Nat) : List Nat :=
  (List.range ((b - a + s - 1) / s)).map (fun k => a + k * s)

/-- Embedding of `DataField._define_cell_interfaces`: the list of
cell-interface index pairs of an `nz × nx` grid, produced in three passes:
right-column vertical interfaces, interior right/up neighbour interfaces in
row-major order, and top-row horizontal interfaces. -/
def _define_cell_interfaces (nz nx : Nat) : List (Nat × Nat) :=
  ((pyRange (nx - 1) ((nz - 1) * nx) nx).map (fun iz => (iz, iz + nx)))
    ++ ((pyRange 0 (nz - 1) 1).flatMap (fun iz =>
          (pyRange 0 (nx - 1) 1).flatMap (fun ix =>
            [(iz * nx + ix, iz * nx + ix + 1), (iz * nx + ix, iz * nx + ix + nx)])))
    ++ ((pyRange ((nz - 1) * nx) (nz * nx - 1) 1).map (fun ix => (ix, ix + 1)))

theorem mem_pyRange {a b s x : Nat} :
    x ∈ pyRange a b s ↔ ∃ k, k < (b - a + s - 1) / s ∧ x = a + k * s := by
  simp only [pyRange, List.mem_map, List.mem_range]
  constructor
  · rintro ⟨k, hk, rfl⟩; exact ⟨k, hk, rfl⟩
  · rintro ⟨k, hk, rfl⟩; exact ⟨k, hk, rfl⟩

theorem nodup_pyRange (a b s : Nat) : (pyRange a b s).Nodup := by
  rcases Nat.eq_zero_or_pos s with hs | hs
  · subst hs
    simp [pyRange, Nat.div_zero]
  · refine List.Nodup.map ?_ (List.nodup_range _)
    intro k₁ k₂ h
    have h' : a + k₁ * s = a + k₂ * s := h
    have : k₁ * s = k₂ * s := by omega
    exact Nat.eq_of_mul_eq_mul_right hs this

theorem pyRange_zero_one (b : Nat) : pyRange 0 b 1 = List.range b := by
  simp [pyRange]

/-- Length of the first (right-column) pass's index range. -/
theorem cnt_pass1 {nz nx : Nat} (hx : 1 ≤ nx) :
    ((nz - 1) * nx - (nx - 1) + nx - 1) / nx = nz - 1 := by
  rcases Nat.eq_zero_or_pos (nz - 1) with h0 | h1
  · rw [h0, Nat.zero_mul, Nat.zero_sub]
    exact Nat.div_eq_of_lt (by omega)
  · have hge : nx - 1 ≤ (nz - 1) * nx := le_trans (by omega) (Nat.le_mul_of_pos_left nx h1)
    have h2 : (nz - 1) * nx - (nx - 1) + nx - 1 = (nz - 1) * nx := by omega
    rw [h2, Nat.mul_div_cancel _ (by omega : 0 < nx)]

/-- Length of the third (top-row) pass's index range. -/
theorem cnt_pass3 {nz nx : Nat} (hz : 1 ≤ nz) (hx : 1 ≤ nx) :
    (nz * nx - 1 - (nz - 1) * nx + 1 - 1) / 1 = nx - 1 := by
  have e : (nz - 1) * nx + nx = nz * nx := by
    have h : nz - 1 + 1 = nz := by omega
    calc (nz - 1) * nx + nx = (nz - 1 + 1) * nx := by ring
    _ = nz * nx := by rw [h]
  have hp : 1 ≤ nz * nx := Nat.one_le_iff_ne_zero.mpr (by positivity)
  omega

/-- Elements of the right-column pass. -/
theorem mem_pass1 {nz nx : Nat} {p : Nat × Nat}
    (h : p ∈ (pyRange (nx - 1) ((nz - 1) * nx) nx).map (fun iz => (iz, iz + nx))) :
    1 ≤ nx ∧ ∃ k, k < nz - 1 ∧ p = (nx - 1 + k * nx, nx - 1 + k * nx + nx) := by
  rcases List.mem_map.mp h with ⟨iz, hiz, rfl⟩
  rcases mem_pyRange.mp hiz with ⟨k, hk, rfl⟩
  have hx : 1 ≤ nx := by
    by_contra hc
    have h0 : nx = 0 := by omega
    rw [h0, Nat.div_zero] at hk
    omega
  rw [cnt_pass1 hx] at hk
  exact ⟨hx, k, hk, rfl⟩

/-- Elements of the interior pass. -/
theorem mem_pass2 {nz nx : Nat} {p : Nat × Nat}
    (h : p ∈ (pyRange 0 (nz - 1) 1).flatMap (fun iz =>
          (pyRange 0 (nx - 1) 1).flatMap (fun ix =>
            [(iz * nx + ix, iz * nx + ix + 1), (iz * nx + ix, iz * nx + ix + nx)]))) :
    ∃ iz ix, iz < nz - 1 ∧ ix < nx - 1 ∧
      (p = (iz * nx + ix, iz * nx + ix + 1) ∨ p = (iz * nx + ix, iz * nx + ix + nx)) := by
  rcases List.mem_flatMap.mp h with ⟨iz, hiz, h2⟩
  rcases List.mem_flatMap.mp h2 with ⟨ix, hix, h3⟩
  rw [pyRange_zero_one, List.mem_range] at hiz hix
  rcases List.mem_cons.mp h3 with h4 | h4
  · exact ⟨iz, ix, hiz, hix, Or.inl h4⟩
  · rcases List.mem_cons.mp h4 with h5 | h5
    · exact ⟨iz, ix, hiz, hix, Or.inr h5⟩
    · simp at h5

/-- Elements of the top-row pass. -/
theorem mem_pass3 {nz nx : Nat} {p : Nat × Nat}
    (h : p ∈ (pyRange ((nz - 1) * nx) (nz * nx - 1) 1).map (fun ix => (ix, ix + 1))) :
    1 ≤ nz ∧ ∃ k, k < nx - 1 ∧
      p = ((nz - 1) * nx + k, (nz - 1) * nx + k + 1) := by
  rcases List.mem_map.mp h with ⟨i, hi, rfl⟩
  rcases mem_pyRange.mp hi with ⟨k, hk, rfl⟩
  have hz : 1 ≤ nz := by
    by_contra hc
    have h0 : nz = 0 := by omega
    subst h0
    simp at hk
  have hx : 1 ≤ nx := by
    by_contra hc
    have h0 : nx = 0 := by omega
    subst h0
    simp at hk
  rw [cnt_pass3 hz hx] at hk
  exact ⟨hz, k, hk, by simp [Nat.mul_one]⟩

/-- Case analysis over the three construction passes. -/
theorem mem_cell_interfaces_cases {nz nx : Nat} {p : Nat × Nat}
    (h : p ∈ _define_cell_interfaces nz nx) :
    (1 ≤ nx ∧ ∃ k, k < nz - 1 ∧ p = (nx - 1 + k * nx, nx - 1 + k * nx + nx)) ∨
    (∃ iz ix, iz < nz - 1 ∧ ix < nx - 1 ∧
      (p = (iz * nx + ix, iz * nx + ix + 1) ∨ p = (iz * nx + ix, iz * nx + ix + nx))) ∨
    (1 ≤ nz ∧ ∃ k, k < nx - 1 ∧ p = ((nz - 1) * nx + k, (nz - 1) * nx + k + 1)) := by
  unfold _define_cell_interfaces at h
  rcases List.mem_append.mp h with h | h
  · rcases List.mem_append.mp h with h | h
    · exact Or.inl (mem_pass1 h)
    · exact Or.inr (Or.inl (mem_pass2 h))
  · exact Or.inr (Or.inr (mem_pass3 h))

/-- Every interface pair is strictly increasing. -/
theorem fst_lt_snd_of_mem {nz nx : Nat} {p : Nat × Nat}
    (h : p ∈ _define_cell_interfaces nz nx) : p.1 < p.2 := by
  rcases mem_cell_interfaces_cases h with ⟨hx, k, hk, rfl⟩ |
    ⟨iz, ix, hiz, hix, (rfl | rfl)⟩ | ⟨hz, k, hk, rfl⟩
  · simp only []; omega
  · simp only []; omega
  · simp only []; omega
  · simp only []; omega

theorem lin_div {r c n : Nat} (h : c < n) : (r * n + c) / n = r := by
  rw [Nat.mul_comm, Nat.mul_add_div (by omega), Nat.div_eq_of_lt h, Nat.add_zero]

theorem lin_mod {r c n : Nat} (h : c < n) : (r * n + c) % n = c := by
  rw [Nat.mul_comm, Nat.mul_add_mod, Nat.mod_eq_of_lt h]

/-- Every interface joins 4-connected neighbour cells: same column and row
index one apart (vertical), or same row and column index one apart
(horizontal). -/
theorem four_connected {nz nx : Nat} {p : Nat × Nat}
    (h : p ∈ _define_cell_interfaces nz nx) :
    (p.2 / nx = p.1 / nx + 1 ∧ p.2 % nx = p.1 % nx) ∨
    (p.2 / nx = p.1 / nx ∧ p.2 % nx = p.1 % nx + 1) := by
  rcases mem_cell_interfaces_cases h with ⟨hx, k, hk, rfl⟩ |
    ⟨iz, ix, hiz, hix, (rfl | rfl)⟩ | ⟨hz, k, hk, rfl⟩
  · left
    have e : (k + 1) * nx = k * nx + nx := by ring
    have h1 : nx - 1 + k * nx = k * nx + (nx - 1) := by omega
    have h2 : k * nx + (nx - 1) + nx = (k + 1) * nx + (nx - 1) := by omega
    simp only [h1, h2]
    rw [lin_div (by omega), lin_div (by omega), lin_mod (by omega), lin_mod (by omega)]
    exact ⟨rfl, rfl⟩
  · right
    have h2 : iz * nx + ix + 1 = iz * nx + (ix + 1) := by omega
    simp only [h2]
    rw [lin_div (by omega), lin_div (by omega), lin_mod (by omega), lin_mod (by omega)]
    exact ⟨rfl, rfl⟩
  · left
    have e : (iz + 1) * nx = iz * nx + nx := by ring
    have h2 : iz * nx + ix + nx = (iz + 1) * nx + ix := by omega
    simp only [h2]
    rw [lin_div (by omega), lin_div (by omega), lin_mod (by omega), lin_mod (by omega)]
    exact ⟨rfl, rfl⟩
  · right
    have h2 : (nz - 1) * nx + k + 1 = (nz - 1) * nx + (k + 1) := by omega
    simp only [h2]
    rw [lin_div (by omega), lin_div (by omega), lin_mod (by omega), lin_mod (by omega)]
    exact ⟨rfl, rfl⟩

/-- The interface list never repeats a pair. -/
theorem nodup_cell_interfaces (nz nx : Nat) : (_define_cell_interfaces nz nx).Nodup := by
  have nd1 : ((pyRange (nx - 1) ((nz - 1) * nx) nx).map (fun iz => (iz, iz + nx))).Nodup := by
    refine List.Nodup.map ?_ (nodup_pyRange _ _ _)
    intro a b h
    exact congrArg Prod.fst h
  have nd2 : ((pyRange 0 (nz - 1) 1).flatMap (fun iz =>
      (pyRange 0 (nx - 1) 1).flatMap (fun ix =>
        [(iz * nx + ix, iz * nx + ix + 1), (iz * nx + ix, iz * nx + ix + nx)]))).Nodup := by
    rw [List.nodup_flatMap]
    constructor
    · intro iz _
      rw [List.nodup_flatMap]
      constructor
      · intro ix hix
        rw [pyRange_zero_one, List.mem_range] at hix
        have hne : (iz * nx + ix, iz * nx + ix + 1) ≠ (iz * nx + ix, iz * nx + ix + nx) := by
          intro hcontra
          have h2 := congrArg Prod.snd hcontra
          have h2' : iz * nx + ix + 1 = iz * nx + ix + nx := h2
          omega
        simp [List.nodup_cons, hne]
      · simp only [pyRange_zero_one]
        refine List.Pairwise.imp ?_ (List.pairwise_lt_range _)
        intro ix₁ ix₂ hlt a ha₁ ha₂
        simp only [List.mem_cons, List.not_mem_nil, or_false] at ha₁ ha₂
        have f₁ : a.1 = iz * nx + ix₁ := by rcases ha₁ with rfl | rfl <;> rfl
        have f₂ : a.1 = iz * nx + ix₂ := by rcases ha₂ with rfl | rfl <;> rfl
        omega
    · simp only [pyRange_zero_one]
      refine List.Pairwise.imp ?_ (List.pairwise_lt_range _)
      intro iz₁ iz₂ hlt a ha₁ ha₂
      rcases List.mem_flatMap.mp ha₁ with ⟨ix₁, hix₁, hma⟩
      rcases List.mem_flatMap.mp ha₂ with ⟨ix₂, hix₂, hmb⟩
      rw [List.mem_range] at hix₁ hix₂
      simp only [List.mem_cons, List.not_mem_nil, or_false] at hma hmb
      have f₁ : a.1 = iz₁ * nx + ix₁ := by rcases hma with rfl | rfl <;> rfl
      have f₂ : a.1 = iz₂ * nx + ix₂ := by rcases hmb with rfl | rfl <;> rfl
      have e : (iz₁ + 1) * nx = iz₁ * nx + nx := by ring
      have mono : (iz₁ + 1) * nx ≤ iz₂ * nx := Nat.mul_le_mul_right nx (by omega)
      omega
  have nd3 : ((pyRange ((nz - 1) * nx) (nz * nx - 1) 1).map (fun ix => (ix, ix + 1))).Nodup := by
    refine List.Nodup.map ?_ (nodup_pyRange _ _ _)
    intro a b h
    exact congrArg Prod.fst h
  have dj12 : List.Disjoint
      ((pyRange (nx - 1) ((nz - 1) * nx) nx).map (fun iz => (iz, iz + nx)))
      ((pyRange 0 (nz - 1) 1).flatMap (fun iz =>
        (pyRange 0 (nx - 1) 1).flatMap (fun ix =>
          [(iz * nx + ix, iz * nx + ix + 1), (iz * nx + ix, iz * nx + ix + nx)]))) := by
    intro p hp1 hp2
    obtain ⟨hx, k, hk, e₁⟩ := mem_pass1 hp1
    obtain ⟨iz, ix, hiz, hix, e₂⟩ := mem_pass2 hp2
    rcases e₂ with e₂ | e₂
    · rw [e₁] at e₂
      have h1 : nx - 1 + k * nx = iz * nx + ix := congrArg Prod.fst e₂
      have h2 : nx - 1 + k * nx + nx = iz * nx + ix + 1 := congrArg Prod.snd e₂
      omega
    · rw [e₁] at e₂
      have h1 : nx - 1 + k * nx = iz * nx + ix := congrArg Prod.fst e₂
      have m1 : (k * nx + (nx - 1)) % nx = nx - 1 := lin_mod (by omega)
      have m2 : (iz * nx + ix) % nx = ix := lin_mod (by omega)
      have h3 : k * nx + (nx - 1) = iz * nx + ix := by omega
      rw [h3] at m1
      omega
  have dj13 : List.Disjoint
      ((pyRange (nx - 1) ((nz - 1) * nx) nx).map (fun iz => (iz, iz + nx)))
      ((pyRange ((nz - 1) * nx) (nz * nx - 1) 1).map (fun ix => (ix, ix + 1))) := by
    intro p hp1 hp3
    obtain ⟨hx, k, hk, e₁⟩ := mem_pass1 hp1
    obtain ⟨hz, k', hk', e₃⟩ := mem_pass3 hp3
    rw [e₁] at e₃
    have h1 : nx - 1 + k * nx = (nz - 1) * nx + k' := congrArg Prod.fst e₃
    have h2 : nx - 1 + k * nx + nx = (nz - 1) * nx + k' + 1 := congrArg Prod.snd e₃
    omega
  have dj23 : List.Disjoint
      ((pyRange 0 (nz - 1) 1).flatMap (fun iz =>
        (pyRange 0 (nx - 1) 1).flatMap (fun ix =>
          [(iz * nx + ix, iz * nx + ix + 1), (iz * nx + ix, iz * nx + ix + nx)])))
      ((pyRange ((nz - 1) * nx) (nz * nx - 1) 1).map (fun ix => (ix, ix + 1))) := by
    intro p hp2 hp3
    obtain ⟨iz, ix, hiz, hix, e₂⟩ := mem_pass2 hp2
    obtain ⟨hz, k', hk', e₃⟩ := mem_pass3 hp3
    have e : (iz + 1) * nx = iz * nx + nx := by ring
    have mono : (iz + 1) * nx ≤ (nz - 1) * nx := Nat.mul_le_mul_right nx (by omega)
    have h1 : p.1 = iz * nx + ix := by rcases e₂ with rfl | rfl <;> rfl
    have h3 : p.1 = (nz - 1) * nx + k' := by rw [e₃]
    omega
  unfold _define_cell_interfaces
  refine List.Nodup.append (List.Nodup.append nd1 nd2 dj12) nd3 ?_
  intro p hp hc
  rcases List.mem_append.mp hp with h | h
  · exact dj13 h hc
  · exact dj23 h hc

/-- Constant-chunk length of a flat map. -/
theorem length_flatMap_const {α β : Type} (l : List α) (f : α → List β) (c : Nat)
    (h : ∀ a ∈ l, (f a).length = c) : (l.flatMap f).length = l.length * c := by
  induction l with
  | nil => simp
  | cons a t ih =>
    simp only [List.flatMap_cons, List.length_append, List.length_cons]
    rw [h a (by simp), ih (fun b hb => h b (by simp [hb]))]
    ring

/-- The interface list of an `nz × nx` grid has exactly
`nz*(nx-1) + nx*(nz-1)` entries. -/
theorem length_cell_interfaces {nz nx : Nat} (hz : 1 ≤ nz) (hx : 1 ≤ nx) :
    (_define_cell_interfaces nz nx).length = nz * (nx - 1) + nx * (nz - 1) := by
  unfold _define_cell_interfaces
  rw [List.length_append, List.length_append, List.length_map, List.length_map]
  have l1 : (pyRange (nx - 1) ((nz - 1) * nx) nx).length = nz - 1 := by
    simp [pyRange, cnt_pass1 hx]
  have l3 : (pyRange ((nz - 1) * nx) (nz * nx - 1) 1).length = nx - 1 := by
    have := cnt_pass3 hz hx
    simp only [pyRange, List.length_map, List.length_range]
    omega
  have l2 : ((pyRange 0 (nz - 1) 1).flatMap (fun iz =>
      (pyRange 0 (nx - 1) 1).flatMap (fun ix =>
        [(iz * nx + ix, iz * nx + ix + 1), (iz * nx + ix, iz * nx + ix + nx)]))).length
      = (nz - 1) * ((nx - 1) * 2) := by
    rw [length_flatMap_const _ _ ((nx - 1) * 2), pyRange_zero_one, List.length_range]
    intro a _
    rw [length_flatMap_const _ _ 2, pyRange_zero_one, List.length_range]
    intro b _
    rfl
  rw [l1, l2, l3]
  obtain ⟨a, rfl⟩ : ∃ a, nz = a + 1 := ⟨nz - 1, by omega⟩
  obtain ⟨b, rfl⟩ : ∃ b, nx = b + 1 := ⟨nx - 1, by omega⟩
  simp only [Nat.add_sub_cancel]
  have e1 : (a + 1) * b = a * b + b := by ring
  have e2 : (b + 1) * a = a * b + a := by ring
  have e3 : a * (b * 2) = a * b + a * b := by ring
  omega

/-- Every interface's larger index still lies inside the grid. -/
theorem snd_lt_of_mem {nz nx : Nat} {p : Nat × Nat}
    (h : p ∈ _define_cell_interfaces nz nx) : p.2 < nz * nx := by
  have e2 : ∀ m : Nat, 1 ≤ m → (m - 1) * nx + nx = m * nx := by
    intro m hm
    have hmm : m - 1 + 1 = m := by omega
    calc (m - 1) * nx + nx = (m - 1 + 1) * nx := by ring
    _ = m * nx := by rw [hmm]
  rcases mem_cell_interfaces_cases h with ⟨hx, k, hk, rfl⟩ |
    ⟨iz, ix, hiz, hix, (rfl | rfl)⟩ | ⟨hz, k, hk, rfl⟩
  · have e1 : (k + 1) * nx = k * nx + nx := by ring
    have e3 := e2 nz (by omega)
    have mono : (k + 1) * nx ≤ (nz - 1) * nx := Nat.mul_le_mul_right nx (by omega)
    simp only []
    omega
  · have e1 : (iz + 1) * nx = iz * nx + nx := by ring
    have e3 := e2 nz (by omega)
    have mono : (iz + 1) * nx ≤ (nz - 1) * nx := Nat.mul_le_mul_right nx (by omega)
    simp only []
    omega
  · have e1 : (iz + 1) * nx = iz * nx + nx := by ring
    have e3 := e2 nz (by omega)
    have mono : (iz + 1) * nx ≤ (nz - 1) * nx := Nat.mul_le_mul_right nx (by omega)
    simp only []
    omega
  · have e3 := e2 nz hz
    simp only []
    omega

/-- C1: for every grid with `R ≥ 1` rows and `C ≥ 1` columns, the interface
topology built by `_define_cell_interfaces` contains exactly
`R*(C-1) + C*(R-1)` pairs of linear cell indices, each unordered pair
appears exactly once (no pair repeats, even with its components swapped),
and every pair joins 4-connected neighbours: the row indices differ by
exactly one with equal column indices, or the column indices differ by
exactly one with equal row indices, never both. -/
theorem claim_C1_interface_topology (nz nx : Nat) (hz : 1 ≤ nz) (hx : 1 ≤ nx) :
    (_define_cell_interfaces nz nx).length = nz * (nx - 1) + nx * (nz - 1)
    ∧ (_define_cell_interfaces nz nx).Pairwise (fun p q =>
        ¬ (p.1 = q.1 ∧ p.2 = q.2) ∧ ¬ (p.1 = q.2 ∧ p.2 = q.1))
    ∧ ∀ p ∈ _define_cell_interfaces nz nx,
        p.2 < nz * nx ∧
        ((p.2 / nx = p.1 / nx + 1 ∧ p.2 % nx = p.1 % nx) ∨
        (p.2 / nx = p.1 / nx ∧ p.2 % nx = p.1 % nx + 1)) := by
  refine ⟨length_cell_interfaces hz hx, ?_,
    fun p hp => ⟨snd_lt_of_mem hp, four_connected hp⟩⟩
  refine List.Pairwise.imp_of_mem ?_ (nodup_cell_interfaces nz nx)
  intro p q hp hq hne
  constructor
  · intro ⟨h1, h2⟩
    exact hne (Prod.ext h1 h2)
  · intro ⟨h1, h2⟩
    have hp' := fst_lt_snd_of_mem hp
    have hq' := fst_lt_snd_of_mem hq
    omega

theorem claim_C1_witness :
    1 ≤ 2 ∧ 1 ≤ 3 ∧
    ((_define_cell_interfaces 2 3).length = 2 * (3 - 1) + 3 * (2 - 1)
    ∧ (_define_cell_interfaces 2 3).Pairwise (fun p q =>
        ¬ (p.1 = q.1 ∧ p.2 = q.2) ∧ ¬ (p.1 = q.2 ∧ p.2 = q.1))
    ∧ ∀ p ∈ _define_cell_interfaces 2 3,
        p.2 < 2 * 3 ∧
        ((p.2 / 3 = p.1 / 3 + 1 ∧ p.2 % 3 = p.1 % 3) ∨
        (p.2 / 3 = p.1 / 3 ∧ p.2 % 3 = p.1 % 3 + 1))) :=
  ⟨by decide, by decide, claim_C1_interface_topology 2 3 (by decide) (by decide)⟩

/-- Kept interface edges of `DataField.create_adjacency_matrix`: each
interface weighted by `2 * data i * data j`, with connections whose weight
is not strictly positive cleared (the code filters `weights > 0`). -/
def keptEdges (nz nx : Nat) (data : Nat → ℚ) : List (Nat × Nat × ℚ) :=
  ((_define_cell_interfaces nz nx).map
      (fun p => (p.1, p.2, 2 * data p.1 * data p.2))).filter
    (fun t => decide (0 < t.2.2))

/-- Embedding of `DataField.create_adjacency_matrix`: the COO triples
(row, column, weight) handed to the sparse constructor — the kept edges
followed by their mirrored copies (row and column appended to each other,
weights appended to themselves). -/
def create_adjacency_matrix (nz nx : Nat) (data : Nat → ℚ) : List (Nat × Nat × ℚ) :=
  keptEdges nz nx data ++ (keptEdges nz nx data).map (fun t => (t.2.1, t.1, t.2.2))

/-- Entry (r, c) of the assembled sparse matrix: scipy's COO-to-CSR
conversion sums duplicate coordinates. -/
def matrixEntry (entries : List (Nat × Nat × ℚ)) (r c : Nat) : ℚ :=
  ((entries.filter (fun t => decide (t.1 = r) && decide (t.2.1 = c))).map
    (fun t => t.2.2)).sum

theorem matrixEntry_append (l₁ l₂ : List (Nat × Nat × ℚ)) (r c : Nat) :
    matrixEntry (l₁ ++ l₂) r c = matrixEntry l₁ r c + matrixEntry l₂ r c := by
  unfold matrixEntry
  rw [List.filter_append, List.map_append, List.sum_append]

theorem matrixEntry_swap (l : List (Nat × Nat × ℚ)) (r c : Nat) :
    matrixEntry (l.map (fun t => (t.2.1, t.1, t.2.2))) r c = matrixEntry l c r := by
  induction l with
  | nil => rfl
  | cons t ts ih =>
    simp only [matrixEntry, List.map_cons, List.filter_cons] at *
    by_cases h1 : t.1 = c <;> by_cases h2 : t.2.1 = r <;>
      simp [h1, h2, ih]

/-- Rows of kept edges are strictly below their columns. -/
theorem keptEdges_fst_lt {nz nx : Nat} {data : Nat → ℚ} :
    ∀ t ∈ keptEdges nz nx data, t.1 < t.2.1 := by
  intro t ht
  unfold keptEdges at ht
  rcases List.mem_map.mp (List.mem_of_mem_filter ht) with ⟨p, hp, rfl⟩
  exact fst_lt_snd_of_mem hp

/-- A filter that pins down a single element of a duplicate-free list. -/
theorem filter_eq_of_nodup {α : Type} [DecidableEq α] {l : List α} {a : α}
    (hnd : l.Nodup) (ha : a ∈ l) (g : α → Bool) :
    l.filter (fun x => decide (x = a) && g x) = if g a then [a] else [] := by
  induction l with
  | nil => cases ha
  | cons b t ih =>
    rw [List.filter_cons]
    rcases List.mem_cons.mp ha with rfl | hat
    · have hnotin : a ∉ t := (List.nodup_cons.mp hnd).1
      have htail : t.filter (fun x => decide (x = a) && g x) = [] := by
        rw [List.filter_eq_nil_iff]
        intro x hx
        have hne : x ≠ a := fun e => hnotin (e ▸ hx)
        simp [hne]
      by_cases hg : g a <;> simp [hg, htail]
    · have hba : b ≠ a := by
        rintro rfl
        exact (List.nodup_cons.mp hnd).1 hat
      have hhead : (decide (b = a) && g b) = false := by simp [hba]
      simp [hhead, ih (List.nodup_cons.mp hnd).2 hat]

/-- The off-diagonal mirror contributes nothing at increasing coordinates. -/
theorem matrixEntry_keptEdges_rev {nz nx : Nat} {data : Nat → ℚ} {i j : Nat}
    (hij : j < i) : matrixEntry (keptEdges nz nx data) i j = 0 := by
  unfold matrixEntry
  have hnil : (keptEdges nz nx data).filter
      (fun t => decide (t.1 = i) && decide (t.2.1 = j)) = [] := by
    rw [List.filter_eq_nil_iff]
    intro t ht
    have hlt := keptEdges_fst_lt t ht
    simp only [Bool.and_eq_true, decide_eq_true_eq, not_and]
    omega
  rw [hnil]
  rfl

/-- Filtering a coordinate-preserving image of a duplicate-free pair list
down to one coordinate pair pins down a single element. -/
theorem filter_map_eq_of_nodup {l : List (Nat × Nat)} {p : Nat × Nat}
    (hnd : l.Nodup) (hp : p ∈ l) (f : Nat × Nat → Nat × Nat × ℚ)
    (hf : ∀ q, (f q).1 = q.1 ∧ (f q).2.1 = q.2) (g : Nat × Nat × ℚ → Bool) :
    (l.map f).filter (fun t => (decide (t.1 = p.1) && decide (t.2.1 = p.2)) && g t)
      = if g (f p) then [f p] else [] := by
  induction l with
  | nil => cases hp
  | cons b t ih =>
    rw [List.map_cons, List.filter_cons]
    rcases List.mem_cons.mp hp with rfl | hat
    · have hnotin : p ∉ t := (List.nodup_cons.mp hnd).1
      have htail : (t.map f).filter
          (fun x => (decide (x.1 = p.1) && decide (x.2.1 = p.2)) && g x) = [] := by
        rw [List.filter_eq_nil_iff]
        intro x hx
        rcases List.mem_map.mp hx with ⟨q, hq, rfl⟩
        have hqp : q ≠ p := fun e => hnotin (e ▸ hq)
        simp only [Bool.and_eq_true, decide_eq_true_eq, (hf q).1, (hf q).2, not_and]
        intro ⟨h1, h2⟩
        exact absurd (Prod.ext h1 h2) hqp
      have hhead : ((decide ((f p).1 = p.1) && decide ((f p).2.1 = p.2)) && g (f p))
          = g (f p) := by
        simp [(hf p).1, (hf p).2]
      rw [hhead, htail]
    · have hba : b ≠ p := by
        rintro rfl
        exact (List.nodup_cons.mp hnd).1 hat
      have hcoord : (decide ((f b).1 = p.1) && decide ((f b).2.1 = p.2)) = false := by
        simp only [(hf b).1, (hf b).2]
        by_cases h1 : b.1 = p.1
        · by_cases h2 : b.2 = p.2
          · exact absurd (Prod.ext h1 h2) hba
          · simp [h2]
        · simp [h1]
      rw [hcoord, Bool.false_and]
      simp only [Bool.false_eq_true, if_false]
      try exact ih (List.nodup_cons.mp hnd).2 hat

/-- C2 (amended): for every flat value vector, `create_adjacency_matrix`
assigns each interface (i, j) the weight `2 * data i * data j`; the interface
is dropped exactly when that weight is not strictly positive (the code
filters `weights > 0`, so negative weights are cleared along with zeros),
and every interface with strictly positive weight is kept with exactly that
weight. -/
theorem claim_C2_adjacency_weights (nz nx : Nat) (data : Nat → ℚ) (p : Nat × Nat)
    (hp : p ∈ _define_cell_interfaces nz nx) :
    matrixEntry (create_adjacency_matrix nz nx data) p.1 p.2
      = if 0 < 2 * data p.1 * data p.2 then 2 * data p.1 * data p.2 else 0 := by
  have hlt := fst_lt_snd_of_mem hp
  unfold create_adjacency_matrix
  rw [matrixEntry_append, matrixEntry_swap, matrixEntry_keptEdges_rev hlt, add_zero]
  unfold matrixEntry keptEdges
  rw [List.filter_filter]
  rw [filter_map_eq_of_nodup (nodup_cell_interfaces nz nx) hp
    (fun q => (q.1, q.2, 2 * data q.1 * data q.2)) (fun q => ⟨rfl, rfl⟩)
    (fun t => decide (0 < t.2.2))]
  by_cases hpos : (0 : ℚ) < 2 * data p.1 * data p.2 <;> simp [hpos]

theorem claim_C2_witness :
    ((0, 1) ∈ _define_cell_interfaces 2 1)
    ∧ matrixEntry (create_adjacency_matrix 2 1 (fun _ => 1)) 0 1
      = if 0 < 2 * (1 : ℚ) * 1 then 2 * (1 : ℚ) * 1 else 0 :=
  ⟨by decide, claim_C2_adjacency_weights 2 1 (fun _ => 1) (0, 1) (by decide)⟩

/-- Value vector with a sign change, exhibiting a nonzero weight that the
adjacency construction nevertheless drops. -/
def dNeg : Nat → ℚ := fun k => if k = 0 then 1 else -1

/-- C2 (counterexample to the claim as stated): on the 1×2 grid with cell
values 1 and -1 the single interface (0, 1) has weight -2, which is nonzero,
yet the interface is dropped — the matrix entry is 0, so "dropped iff the
weight is exactly zero" is false. -/
theorem claim_C2_counterexample :
    (0, 1) ∈ _define_cell_interfaces 1 2
    ∧ 2 * dNeg 0 * dNeg 1 ≠ 0
    ∧ matrixEntry (create_adjacency_matrix 1 2 dNeg) 0 1 = 0 := by
  have hifc : _define_cell_interfaces 1 2 = [(0, 1)] := by decide
  have hkept : keptEdges 1 2 dNeg = [] := by
    rw [keptEdges, hifc]
    simp only [List.map_cons, List.map_nil, List.filter_cons, List.filter_nil]
    norm_num [dNeg]
  refine ⟨by decide, by norm_num [dNeg], ?_⟩
  rw [create_adjacency_matrix, hkept]
  rfl

/-- C6: the assembled weighted graph is symmetric — every COO entry has its
mirrored entry present with the same weight, and the summed matrix entries
satisfy weight(i, j) = weight(j, i) for all index pairs. -/
theorem claim_C6_adjacency_symmetric (nz nx : Nat) (data : Nat → ℚ) :
    (∀ e ∈ create_adjacency_matrix nz nx data,
      (e.2.1, e.1, e.2.2) ∈ create_adjacency_matrix nz nx data)
    ∧ ∀ i j, matrixEntry (create_adjacency_matrix nz nx data) i j
        = matrixEntry (create_adjacency_matrix nz nx data) j i := by
  constructor
  · intro e he
    unfold create_adjacency_matrix at he ⊢
    rcases List.mem_append.mp he with h | h
    · exact List.mem_append.mpr (Or.inr (List.mem_map.mpr ⟨e, h, rfl⟩))
    · rcases List.mem_map.mp h with ⟨t, ht, rfl⟩
      exact List.mem_append.mpr (Or.inl ht)
  · intro i j
    unfold create_adjacency_matrix
    rw [matrixEntry_append, matrixEntry_append, matrixEntry_swap, matrixEntry_swap]
    ring

theorem claim_C6_witness :
    matrixEntry (create_adjacency_matrix 1 2 (fun k => (k : ℚ) + 1)) 0 1
      = matrixEntry (create_adjacency_matrix 1 2 (fun k => (k : ℚ) + 1)) 1 0 :=
  (claim_C6_adjacency_symmetric 1 2 (fun k => (k : ℚ) + 1)).2 0 1

/-- C10: every interface pair produced by `_define_cell_interfaces` is
strictly increasing (so no interface is a self-loop), and consequently the
adjacency matrix built from the topology has a zero diagonal. -/
theorem claim_C10_no_self_loops (nz nx : Nat) (data : Nat → ℚ) :
    (∀ p ∈ _define_cell_interfaces nz nx, p.1 < p.2)
    ∧ ∀ k, matrixEntry (create_adjacency_matrix nz nx data) k k = 0 := by
  constructor
  · exact fun p hp => fst_lt_snd_of_mem hp
  · intro k
    unfold create_adjacency_matrix
    rw [matrixEntry_append, matrixEntry_swap]
    have h0 : matrixEntry (keptEdges nz nx data) k k = 0 := by
      unfold matrixEntry
      have hnil : (keptEdges nz nx data).filter
          (fun t => decide (t.1 = k) && decide (t.2.1 = k)) = [] := by
        rw [List.filter_eq_nil_iff]
        intro t ht
        have hlt := keptEdges_fst_lt t ht
        simp only [Bool.and_eq_true, decide_eq_true_eq, not_and]
        omega
      rw [hnil]
      rfl
    rw [h0, add_zero]

theorem claim_C10_witness :
    (0 : Nat) < 1 ∧ matrixEntry (create_adjacency_matrix 2 2 (fun _ => 1)) 0 0 = 0 :=
  ⟨(claim_C10_no_self_loops 2 2 (fun _ => 1)).1 (0, 1) (by decide),
   (claim_C10_no_self_loops 2 2 (fun _ => 1)).2 0⟩

/-- Average of the numpy slice `data_map[iz:iz+2, ix:ix+2]` of an `nz × nx`
grid: the slice clips at the grid boundary, so the block is 2×2, 2×1, 1×2 or
1×1. -/
def blockAvg (g : Nat → Nat → ℚ) (nz nx iz ix : Nat) : ℚ :=
  let rs := min (iz + 2) nz - iz
  let cs := min (ix + 2) nx - ix
  (((List.range rs).map (fun r =>
      ((List.range cs).map (fun c => g (iz + r) (ix + c))).sum)).sum) / ((rs * cs : Nat) : ℚ)

/-- Average of the vertical slice `data_map[iz:iz+2, c]`. -/
def colAvg (g : Nat → Nat → ℚ) (nz iz c : Nat) : ℚ :=
  let rs := min (iz + 2) nz - iz
  (((List.range rs).map (fun r => g (iz + r) c)).sum) / ((rs : Nat) : ℚ)

/-- Average of the horizontal slice `data_map[r, ix:ix+2]`. -/
def rowAvg (g : Nat → Nat → ℚ) (nx r ix : Nat) : ℚ :=
  let cs := min (ix + 2) nx - ix
  (((List.range cs).map (fun c => g r (ix + c))).sum) / ((cs : Nat) : ℚ)

/-- Single assignment to the scratch point-data buffer. -/
def updPD (b : Nat × Nat × Nat → ℚ) (q : Nat × Nat × Nat) (v : ℚ) :
    Nat × Nat × Nat → ℚ :=
  fun p => if p = q then v else b p

/-- Sequential execution of buffer assignments: later writes win. -/
def applyWrites (b : Nat × Nat × Nat → ℚ) :
    List ((Nat × Nat × Nat) × ℚ) → (Nat × Nat × Nat → ℚ)
  | [] => b
  | w :: ws => applyWrites (updPD b w.1 w.2) ws

/-- Corner assignments of `create_point_data`; Python's index `-1` denotes
buffer row `nz` / column `nx` and grid row `nz-1` / column `nx-1`. -/
def cornerWrites (g : Nat → Nat → ℚ) (nz nx : Nat) : List ((Nat × Nat × Nat) × ℚ) :=
  [((0, 0, 0), g 0 0), ((0, nx, 1), g 0 (nx - 1)),
   ((nz, nx, 2), g (nz - 1) (nx - 1)), ((nz, 0, 3), g (nz - 1) 0)]

/-- Interior pass of `create_point_data`: one block average written to four
corner slots of four neighbouring buffer cells, in row-major order. -/
def interiorWrites (g : Nat → Nat → ℚ) (nz nx : Nat) : List ((Nat × Nat × Nat) × ℚ) :=
  (List.range nz).flatMap (fun iz =>
    (List.range nx).flatMap (fun ix =>
      [((iz, ix, 2), blockAvg g nz nx iz ix),
       ((iz + 1, ix + 1, 0), blockAvg g nz nx iz ix),
       ((iz + 1, ix, 1), blockAvg g nz nx iz ix),
       ((iz, ix + 1, 3), blockAvg g nz nx iz ix)]))

/-- Left/right edge pass of `create_point_data`. -/
def edgeLRWrites (g : Nat → Nat → ℚ) (nz nx : Nat) : List ((Nat × Nat × Nat) × ℚ) :=
  (List.range nz).flatMap (fun iz =>
    [((iz, 0, 3), colAvg g nz iz 0),
     ((iz + 1, 0, 0), colAvg g nz iz 0),
     ((iz, nx, 2), colAvg g nz iz (nx - 1)),
     ((iz + 1, nx, 1), colAvg g nz iz (nx - 1))])

/-- Top/bottom edge pass of `create_point_data`. -/
def edgeTBWrites (g : Nat → Nat → ℚ) (nz nx : Nat) : List ((Nat × Nat × Nat) × ℚ) :=
  (List.range nx).flatMap (fun ix =>
    [((0, ix, 1), rowAvg g nx 0 ix),
     ((0, ix + 1, 0), rowAvg g nx 0 ix),
     ((nz, ix, 2), rowAvg g nx (nz - 1) ix),
     ((nz, ix + 1, 3), rowAvg g nx (nz - 1) ix)])

/-- Cropped point-data array: extents plus the value table. -/
structure PointData where
  dimz : Nat
  dimx : Nat
  val : Nat × Nat × Nat → ℚ

/-- Embedding of `DataField.create_point_data`: a `(nz+1) × (nx+1) × 4` zero
buffer receives the corner, interior, left/right and top/bottom assignments
in program order and is then cropped by the slice `[0:nz, 0:nx, :]`, whose
extents are recorded in `dimz`/`dimx`. -/
def create_point_data (g : Nat → Nat → ℚ) (nz nx : Nat) : PointData :=
  { dimz := min nz (nz + 1)
    dimx := min nx (nx + 1)
    val := applyWrites (fun _ => 0)
      (cornerWrites g nz nx ++ interiorWrites g nz nx
        ++ edgeLRWrites g nz nx ++ edgeTBWrites g nz nx) }

/-- Value of the last assignment to `p` in a write sequence, starting from
`b0`. -/
def lastVal (b0 : ℚ) (p : Nat × Nat × Nat) : List ((Nat × Nat × Nat) × ℚ) → ℚ
  | [] => b0
  | w :: ws => if w.1 = p then lastVal w.2 p ws else lastVal b0 p ws

theorem applyWrites_eq_lastVal (ws : List ((Nat × Nat × Nat) × ℚ))
    (b : Nat × Nat × Nat → ℚ) (p : Nat × Nat × Nat) :
    applyWrites b ws p = lastVal (b p) p ws := by
  induction ws generalizing b with
  | nil => rfl
  | cons w ws ih =>
    simp only [applyWrites, lastVal]
    by_cases h : w.1 = p
    · rw [if_pos h, ih]
      have hu : updPD b w.1 w.2 p = w.2 := by
        unfold updPD
        rw [if_pos h.symm]
      rw [hu]
    · rw [if_neg h, ih]
      have hu : updPD b w.1 w.2 p = b p := by
        unfold updPD
        rw [if_neg (fun e => h e.symm)]
      rw [hu]

theorem lastVal_append (b0 : ℚ) (p : Nat × Nat × Nat)
    (l₁ l₂ : List ((Nat × Nat × Nat) × ℚ)) :
    lastVal b0 p (l₁ ++ l₂) = lastVal (lastVal b0 p l₁) p l₂ := by
  induction l₁ generalizing b0 with
  | nil => rfl
  | cons w ws ih =>
    simp only [List.cons_append, lastVal]
    by_cases h : w.1 = p <;> simp [h, ih]

theorem lastVal_of_no_write (p : Nat × Nat × Nat)
    (ws : List ((Nat × Nat × Nat) × ℚ)) (b0 : ℚ)
    (h : ∀ w ∈ ws, w.1 ≠ p) : lastVal b0 p ws = b0 := by
  induction ws with
  | nil => rfl
  | cons w t ih =>
    simp only [lastVal]
    rw [if_neg (h w (List.mem_cons_self w t))]
    exact ih (fun x hx => h x (List.mem_cons_of_mem w hx))

/-- When exactly one element of `l` contributes writes to `p`, the final
value at `p` is that chunk's last write, independent of the start value. -/
theorem lastVal_flatMap_unique {α : Type} (p : Nat × Nat × Nat)
    (gf : α → List ((Nat × Nat × Nat) × ℚ)) (a₀ : α) (v : ℚ)
    (hself : ∀ b0, lastVal b0 p (gf a₀) = v) :
    ∀ l : List α, a₀ ∈ l → (∀ a ∈ l, a ≠ a₀ → ∀ w ∈ gf a, w.1 ≠ p) →
      ∀ b0, lastVal b0 p (l.flatMap gf) = v := by
  intro l
  induction l with
  | nil => intro h; cases h
  | cons a t ih =>
    intro hmem hothers b0
    rw [List.flatMap_cons, lastVal_append]
    by_cases ha : a₀ ∈ t
    · exact ih ha (fun x hx hne w hw => hothers x (List.mem_cons_of_mem a hx) hne w hw) _
    · have haa : a = a₀ := by
        rcases List.mem_cons.mp hmem with h | h
        · exact h.symm
        · exact absurd h ha
      subst haa
      have hnw : ∀ w ∈ t.flatMap gf, w.1 ≠ p := by
        intro w hw
        rcases List.mem_flatMap.mp hw with ⟨x, hx, hwx⟩
        have hxa : x ≠ a := fun e => ha (e ▸ hx)
        exact hothers x (List.mem_cons_of_mem a hx) hxa w hwx
      rw [lastVal_of_no_write _ _ _ hnw, hself]

/-- The cropped point value at `p` is determined by the interior pass when
the later edge passes never write to `p`; the corner pass is always
overwritten in that situation. -/
theorem pd_val_eq (g : Nat → Nat → ℚ) (nz nx : Nat) (p : Nat × Nat × Nat) (v : ℚ)
    (hlr : ∀ w ∈ edgeLRWrites g nz nx, w.1 ≠ p)
    (htb : ∀ w ∈ edgeTBWrites g nz nx, w.1 ≠ p)
    (hint : ∀ b0, lastVal b0 p (interiorWrites g nz nx) = v) :
    (create_point_data g nz nx).val p = v := by
  show applyWrites (fun _ => 0)
      (cornerWrites g nz nx ++ interiorWrites g nz nx
        ++ edgeLRWrites g nz nx ++ edgeTBWrites g nz nx) p = v
  rw [applyWrites_eq_lastVal, lastVal_append, lastVal_append, lastVal_append]
  rw [lastVal_of_no_write _ _ _ htb, lastVal_of_no_write _ _ _ hlr, hint]

/-- Keys written by the interior chunk of cell (a, b) avoid all four corner
slots of cell (z, x) as soon as (a, b) differs from (z, x). -/
theorem chunkKeys_ne (g : Nat → Nat → ℚ) (nz nx a b z x : Nat)
    (hne : ¬(a = z ∧ b = x)) (p : Nat × Nat × Nat)
    (hp : p = (z, x, 2) ∨ p = (z + 1, x + 1, 0) ∨ p = (z + 1, x, 1) ∨ p = (z, x + 1, 3)) :
    ∀ w ∈ [((a, b, 2), blockAvg g nz nx a b),
           ((a + 1, b + 1, 0), blockAvg g nz nx a b),
           ((a + 1, b, 1), blockAvg g nz nx a b),
           ((a, b + 1, 3), blockAvg g nz nx a b)], w.1 ≠ p := by
  intro w hw
  simp only [List.mem_cons, List.not_mem_nil, or_false] at hw
  rcases hp with rfl | rfl | rfl | rfl <;>
    rcases hw with rfl | rfl | rfl | rfl <;>
      simp [Prod.ext_iff] <;> omega

/-- The interior chunk of cell (z, x) leaves its own block average as the
last value in each of the four slots it addresses. -/
theorem chunk_lastVal (g : Nat → Nat → ℚ) (nz nx z x : Nat) (p : Nat × Nat × Nat)
    (hp : p = (z, x, 2) ∨ p = (z + 1, x + 1, 0) ∨ p = (z + 1, x, 1) ∨ p = (z, x + 1, 3)) :
    ∀ b0, lastVal b0 p [((z, x, 2), blockAvg g nz nx z x),
           ((z + 1, x + 1, 0), blockAvg g nz nx z x),
           ((z + 1, x, 1), blockAvg g nz nx z x),
           ((z, x + 1, 3), blockAvg g nz nx z x)] = blockAvg g nz nx z x := by
  intro b0
  rcases hp with rfl | rfl | rfl | rfl <;> simp [lastVal, Prod.ext_iff]

/-- After the whole interior pass, each of the four corner slots fed by cell
(z, x) holds that cell's block average. -/
theorem interior_lastVal (g : Nat → Nat → ℚ) (nz nx z x : Nat)
    (hz : z < nz) (hx : x < nx) (p : Nat × Nat × Nat)
    (hp : p = (z, x, 2) ∨ p = (z + 1, x + 1, 0) ∨ p = (z + 1, x, 1) ∨ p = (z, x + 1, 3)) :
    ∀ b0, lastVal b0 p (interiorWrites g nz nx) = blockAvg g nz nx z x := by
  unfold interiorWrites
  refine lastVal_flatMap_unique p _ z _ ?_ (List.range nz) (List.mem_range.mpr hz) ?_
  · refine lastVal_flatMap_unique p _ x _ ?_ (List.range nx) (List.mem_range.mpr hx) ?_
    · exact chunk_lastVal g nz nx z x p hp
    · intro b _ hbne w hw
      exact chunkKeys_ne g nz nx z b z x (fun h => hbne h.2) p hp w hw
  · intro a _ hane w hw
    rcases List.mem_flatMap.mp hw with ⟨b, _, hwb⟩
    exact chunkKeys_ne g nz nx a b z x (fun h => hane h.1) p hp w hwb

/-- The left/right edge pass never writes to an interior corner slot. -/
theorem edgeLR_no_write (g : Nat → Nat → ℚ) (nz nx z x : Nat)
    (hz1 : z + 1 < nz) (hx1 : x + 1 < nx) (p : Nat × Nat × Nat)
    (hp : p = (z, x, 2) ∨ p = (z + 1, x + 1, 0) ∨ p = (z + 1, x, 1) ∨ p = (z, x + 1, 3)) :
    ∀ w ∈ edgeLRWrites g nz nx, w.1 ≠ p := by
  intro w hw
  unfold edgeLRWrites at hw
  rcases List.mem_flatMap.mp hw with ⟨iz, _, hwk⟩
  simp only [List.mem_cons, List.not_mem_nil, or_false] at hwk
  rcases hp with rfl | rfl | rfl | rfl <;> rcases hwk with rfl | rfl | rfl | rfl <;>
    simp [Prod.ext_iff] <;> omega

/-- The top/bottom edge pass never writes to an interior corner slot. -/
theorem edgeTB_no_write (g : Nat → Nat → ℚ) (nz nx z x : Nat)
    (hz1 : z + 1 < nz) (hx1 : x + 1 < nx) (p : Nat × Nat × Nat)
    (hp : p = (z, x, 2) ∨ p = (z + 1, x + 1, 0) ∨ p = (z + 1, x, 1) ∨ p = (z, x + 1, 3)) :
    ∀ w ∈ edgeTBWrites g nz nx, w.1 ≠ p := by
  intro w hw
  unfold edgeTBWrites at hw
  rcases List.mem_flatMap.mp hw with ⟨ix, _, hwk⟩
  simp only [List.mem_cons, List.not_mem_nil, or_false] at hwk
  rcases hp with rfl | rfl | rfl | rfl <;> rcases hwk with rfl | rfl | rfl | rfl <;>
    simp [Prod.ext_iff] <;> omega

/-- For a fully interior cell the clipped slice is a genuine 2×2 block. -/
theorem blockAvg_interior {g : Nat → Nat → ℚ} {nz nx z x : Nat}
    (hz1 : z + 1 < nz) (hx1 : x + 1 < nx) :
    blockAvg g nz nx z x
      = (g z x + g z (x + 1) + g (z + 1) x + g (z + 1) (x + 1)) / 4 := by
  unfold blockAvg
  have h1 : min (z + 2) nz - z = 2 := by omega
  have h2 : min (x + 2) nx - x = 2 := by omega
  rw [h1, h2]
  norm_num [List.range_succ]
  ring

/-- C3: for every grid with `R ≥ 2` and `C ≥ 2`, the point array returned by
`create_point_data` has shape `R × C × 4`, and for every interior position
`z < R-1`, `x < C-1` the single average of the 2×2 block `grid[z:z+2, x:x+2]`
equals slot top-right (2) of cell (z,x), slot bottom-left (0) of cell
(z+1,x+1), slot bottom-right (1) of cell (z+1,x) and slot top-left (3) of
cell (z,x+1) in the final cropped array. -/
theorem claim_C3_point_data (g : Nat → Nat → ℚ) (nz nx : Nat)
    (hz : 2 ≤ nz) (hx : 2 ≤ nx) :
    (create_point_data g nz nx).dimz = nz
    ∧ (create_point_data g nz nx).dimx = nx
    ∧ ∀ z x, z < nz - 1 → x < nx - 1 →
        ((create_point_data g nz nx).val (z, x, 2)
            = (g z x + g z (x + 1) + g (z + 1) x + g (z + 1) (x + 1)) / 4
        ∧ (create_point_data g nz nx).val (z + 1, x + 1, 0)
            = (g z x + g z (x + 1) + g (z + 1) x + g (z + 1) (x + 1)) / 4
        ∧ (create_point_data g nz nx).val (z + 1, x, 1)
            = (g z x + g z (x + 1) + g (z + 1) x + g (z + 1) (x + 1)) / 4
        ∧ (create_point_data g nz nx).val (z, x + 1, 3)
            = (g z x + g z (x + 1) + g (z + 1) x + g (z + 1) (x + 1)) / 4) := by
  refine ⟨?_, ?_, ?_⟩
  · show min nz (nz + 1) = nz
    omega
  · show min nx (nx + 1) = nx
    omega
  · intro z x hzlt hxlt
    have hz1 : z + 1 < nz := by omega
    have hx1 : x + 1 < nx := by omega
    have havg := blockAvg_interior (g := g) hz1 hx1
    have main : ∀ p, (p = (z, x, 2) ∨ p = (z + 1, x + 1, 0)
        ∨ p = (z + 1, x, 1) ∨ p = (z, x + 1, 3)) →
        (create_point_data g nz nx).val p = blockAvg g nz nx z x := by
      intro p hp
      exact pd_val_eq g nz nx p _ (edgeLR_no_write g nz nx z x hz1 hx1 p hp)
        (edgeTB_no_write g nz nx z x hz1 hx1 p hp)
        (interior_lastVal g nz nx z x (by omega) (by omega) p hp)
    exact ⟨(main _ (Or.inl rfl)).trans havg,
      (main _ (Or.inr (Or.inl rfl))).trans havg,
      (main _ (Or.inr (Or.inr (Or.inl rfl)))).trans havg,
      (main _ (Or.inr (Or.inr (Or.inr rfl)))).trans havg⟩

theorem claim_C3_witness :
    2 ≤ 2 ∧ 2 ≤ 2 ∧
    ((create_point_data (fun _ _ => (3 : ℚ)) 2 2).dimz = 2
    ∧ (create_point_data (fun _ _ => (3 : ℚ)) 2 2).dimx = 2
    ∧ ∀ z x, z < 2 - 1 → x < 2 - 1 →
        ((create_point_data (fun _ _ => (3 : ℚ)) 2 2).val (z, x, 2)
            = ((3 : ℚ) + 3 + 3 + 3) / 4
        ∧ (create_point_data (fun _ _ => (3 : ℚ)) 2 2).val (z + 1, x + 1, 0)
            = ((3 : ℚ) + 3 + 3 + 3) / 4
        ∧ (create_point_data (fun _ _ => (3 : ℚ)) 2 2).val (z + 1, x, 1)
            = ((3 : ℚ) + 3 + 3 + 3) / 4
        ∧ (create_point_data (fun _ _ => (3 : ℚ)) 2 2).val (z, x + 1, 3)
            = ((3 : ℚ) + 3 + 3 + 3) / 4)) :=
  ⟨by decide, by decide,
    claim_C3_point_data (fun _ _ => (3 : ℚ)) 2 2 (by decide) (by decide)⟩

/-- Python exception outcomes relevant to this module. `emptyDatasetError`
models the distinct named error condition `EmptyDatasetError` of the
specification's error taxonomy. -/
inductive PyErr where
  | indexError
  | zeroDivisionError
  | valueError
  | emptyDatasetError
deriving DecidableEq

/-- Loop of `calc_percentile`: `index` is assigned the current position,
then the walk stops at the first position where
`num_vals / tot_vals * 100 >= perc`; otherwise `num_vals` is incremented. -/
def cpLoop (perc tot : ℚ) : List Nat → ℚ → Nat → Nat
  | [], _, index => index
  | i :: rest, numVals, _ =>
    if perc ≤ numVals / tot * 100 then i
    else cpLoop perc tot rest (numVals + 1) i

/-- Embedding of `calc_percentile`: copies the data, sorts it ascending when
`sort` is set (Python `list.sort`), walks the accumulating count, and
returns the sorted element at the final index; the out-of-range lookup on
empty data is an `IndexError`. -/
def calc_percentile (perc : ℚ) (data : List ℚ) (sort : Bool := true) :
    Except PyErr ℚ :=
  let tot : ℚ := data.length
  let sorted_data := if sort then data.insertionSort (fun a b => a ≤ b) else data
  let index := cpLoop perc tot (List.range sorted_data.length) 0 0
  match sorted_data[index]? with
  | some v => Except.ok v
  | none => Except.error PyErr.indexError

/-- Loop of `calc_percentile_num`: counts the prefix walked before the
first break, where the break compares `data[i]` (the original order), not
`sorted_data[i]`. -/
def cpnLoop (num : ℚ) (last : Bool) : List ℚ → Nat
  | [] => 0
  | x :: rest =>
    if last = true ∧ num < x then 0
    else if last = false ∧ num ≤ x then 0
    else 1 + cpnLoop num last rest

/-- Embedding of `calc_percentile_num`: the loop ranges over the indices of
`sorted_data` but reads `data[i]`; insertion sort preserves length, so the
walk sees `data` in its original order (modelled by the `take`). Division
by a zero total is a `ZeroDivisionError`. -/
def calc_percentile_num (num : ℚ) (data : List ℚ) (last : Bool := false)
    (sort : Bool := true) : Except PyErr ℚ :=
  let tot : ℚ := data.length
  let sorted_data := if sort then data.insertionSort (fun a b => a ≤ b) else data
  let num_vals : ℚ := (cpnLoop num last (data.take sorted_data.length) : Nat)
  if tot = 0 then Except.error PyErr.zeroDivisionError
  else Except.ok (num_vals / tot)

/-- C9 (counterexample to the claim as stated): on zero-length data neither
percentile function produces the distinct named `EmptyDatasetError`; the
element lookup in `calc_percentile` fails with `IndexError` and the
unguarded division in `calc_percentile_num` fails with
`ZeroDivisionError`. -/
theorem claim_C9_counterexample :
    calc_percentile 50 [] true ≠ Except.error PyErr.emptyDatasetError
    ∧ calc_percentile_num 1 [] false true ≠ Except.error PyErr.emptyDatasetError
    ∧ calc_percentile 50 [] true = Except.error PyErr.indexError
    ∧ calc_percentile_num 1 [] false true = Except.error PyErr.zeroDivisionError := by
  refine ⟨?_, ?_, rfl, rfl⟩
  · intro hc
    rw [show calc_percentile 50 [] true = Except.error PyErr.indexError from rfl] at hc
    simp at hc
  · intro hc
    rw [show calc_percentile_num 1 [] false true
        = Except.error PyErr.zeroDivisionError from rfl] at hc
    simp at hc

/-- C9 (amended): for every zero-length dataset, `calc_percentile` raises
`IndexError` (the final element lookup is out of range) and
`calc_percentile_num` raises `ZeroDivisionError` (the division by the
element count is not guarded); no distinct `EmptyDatasetError` condition
exists in the code. -/
theorem claim_C9_empty_data (perc x : ℚ) (l s : Bool) :
    calc_percentile perc [] s = Except.error PyErr.indexError
    ∧ calc_percentile_num x [] l s = Except.error PyErr.zeroDivisionError := by
  constructor
  · cases s <;> rfl
  · cases l <;> cases s <;> rfl

/-- C4 (code evaluated at the failing input): on the unsorted data [5, 1]
with query value 3 (defaults `last = False`, `sort = True`), the loop reads
`data[i]` rather than `sorted_data[i]`, breaks immediately at `data[0] = 5`
and returns 0.0, although one of the two elements is strictly below 3, so
the claimed count-based fraction is 1/2, not 0. -/
theorem claim_C4_failing_input :
    calc_percentile_num 3 [5, 1] false true = Except.ok 0
    ∧ (([5, 1] : List ℚ).filter (fun y => decide (y < 3))).length = 1
    ∧ (1 : ℚ) / 2 ≠ 0 := by
  refine ⟨?_, by decide, by norm_num⟩
  norm_num [calc_percentile_num, cpnLoop, List.insertionSort, List.orderedInsert]

/-- When the break condition never fires, the percentile walk ends at the
last position. -/
theorem cpLoop_no_break (perc tot : ℚ) :
    ∀ (l : List Nat) (nv : ℚ) (idx : Nat),
      (∀ j : Nat, j < l.length → ¬ perc ≤ (nv + j) / tot * 100) →
      cpLoop perc tot l nv idx = l.getLastD idx := by
  intro l
  induction l with
  | nil => intro nv idx _; rfl
  | cons i rest ih =>
    intro nv idx h
    simp only [cpLoop]
    have h0 := h 0 (by simp)
    rw [if_neg (by simpa using h0), List.getLastD_cons]
    refine ih (nv + 1) i ?_
    intro j hj hc
    refine h (j + 1) (by simp only [List.length_cons]; omega) ?_
    have e : nv + ((j + 1 : Nat) : ℚ) = nv + 1 + (j : ℚ) := by push_cast; ring
    rw [e]
    exact hc

theorem range_getLastD {n : Nat} (d : Nat) (h : 1 ≤ n) :
    (List.range n).getLastD d = n - 1 := by
  obtain ⟨m, rfl⟩ : ∃ m, n = m + 1 := ⟨n - 1, by omega⟩
  rw [List.range_succ, List.getLastD_concat]
  omega

/-- Unfolding of `calc_percentile` at the default `sort = true`. -/
theorem calc_percentile_eq (perc : ℚ) (data : List ℚ) :
    calc_percentile perc data true =
      match (data.insertionSort (fun a b => a ≤ b))[cpLoop perc (data.length : ℚ)
        (List.range (data.insertionSort (fun a b => a ≤ b)).length) 0 0]? with
      | some v => Except.ok v
      | none => Except.error PyErr.indexError := rfl

/-- The returned element is the sorted-list entry at the final walk index. -/
theorem percentile_get (perc : ℚ) (data : List ℚ) (idx : Nat)
    (hidx : cpLoop perc (data.length : ℚ)
        (List.range (data.insertionSort (fun a b => a ≤ b)).length) 0 0 = idx)
    (hlt : idx < (data.insertionSort (fun a b => a ≤ b)).length) :
    calc_percentile perc data true
      = Except.ok ((data.insertionSort (fun a b => a ≤ b)).get ⟨idx, hlt⟩) := by
  rw [calc_percentile_eq, hidx, List.getElem?_eq_getElem hlt]
  simp [List.get_eq_getElem]

/-- C5: for every nonempty dataset, `calc_percentile 0` returns the minimum
element and `calc_percentile 100` returns the maximum element (the walk over
the ascending-sorted data reaches the last element). -/
theorem claim_C5_percentile_extremes (data : List ℚ) (h : data ≠ []) :
    (∃ v, calc_percentile 0 data true = Except.ok v ∧ v ∈ data ∧ ∀ y ∈ data, v ≤ y)
    ∧ (∃ v, calc_percentile 100 data true = Except.ok v ∧ v ∈ data ∧ ∀ y ∈ data, y ≤ v) := by
  have hperm := List.perm_insertionSort (fun a b : ℚ => a ≤ b) data
  have hsorted := List.sorted_insertionSort (fun a b : ℚ => a ≤ b) data
  have hlen : (data.insertionSort (fun a b : ℚ => a ≤ b)).length = data.length :=
    hperm.length_eq
  have hn : 1 ≤ data.length := List.length_pos.mpr h
  constructor
  · have h0 : 0 < (data.insertionSort (fun a b : ℚ => a ≤ b)).length := by omega
    have hidx : cpLoop 0 (data.length : ℚ)
        (List.range (data.insertionSort (fun a b => a ≤ b)).length) 0 0 = 0 := by
      rw [hlen]
      obtain ⟨m, hm⟩ : ∃ m, data.length = m + 1 := ⟨data.length - 1, by omega⟩
      rw [hm, List.range_succ_eq_map]
      simp only [cpLoop]
      rw [if_pos (by norm_num)]
    refine ⟨(data.insertionSort (fun a b : ℚ => a ≤ b)).get ⟨0, h0⟩,
      percentile_get 0 data 0 hidx h0, hperm.subset (List.get_mem _ _ _), ?_⟩
    intro y hy
    rcases List.mem_iff_get.mp (hperm.mem_iff.mpr hy) with ⟨i, rfl⟩
    exact List.Sorted.rel_get_of_le hsorted (by simp [Fin.le_def])
  · have hnb : ∀ j : Nat, j < (data.insertionSort (fun a b : ℚ => a ≤ b)).length →
        ¬ (100 : ℚ) ≤ ((0 : ℚ) + j) / (data.length : ℚ) * 100 := by
      intro j hj hc
      rw [hlen] at hj
      have hpos : (0 : ℚ) < (data.length : ℚ) := by exact_mod_cast hn
      have hjlt : (j : ℚ) < (data.length : ℚ) := by exact_mod_cast hj
      have hd : (j : ℚ) / (data.length : ℚ) < 1 := (div_lt_one hpos).mpr hjlt
      have h100 : ((j : ℚ) / (data.length : ℚ)) * 100 < 100 := by nlinarith
      rw [zero_add] at hc
      linarith
    have hl0 : (data.insertionSort (fun a b : ℚ => a ≤ b)).length - 1
        < (data.insertionSort (fun a b : ℚ => a ≤ b)).length := by omega
    have hidx : cpLoop 100 (data.length : ℚ)
        (List.range (data.insertionSort (fun a b => a ≤ b)).length) 0 0
        = (data.insertionSort (fun a b : ℚ => a ≤ b)).length - 1 := by
      rw [cpLoop_no_break 100 (data.length : ℚ) _ 0 0 (by simpa using hnb)]
      exact range_getLastD 0 (by omega)
    refine ⟨(data.insertionSort (fun a b : ℚ => a ≤ b)).get
        ⟨(data.insertionSort (fun a b : ℚ => a ≤ b)).length - 1, hl0⟩,
      percentile_get 100 data _ hidx hl0, hperm.subset (List.get_mem _ _ _), ?_⟩
    intro y hy
    rcases List.mem_iff_get.mp (hperm.mem_iff.mpr hy) with ⟨i, rfl⟩
    refine List.Sorted.rel_get_of_le hsorted ?_
    have := i.isLt
    simp only [Fin.le_def]
    omega

theorem claim_C5_witness :
    ([3, 1, 2] : List ℚ) ≠ []
    ∧ ((∃ v, calc_percentile 0 [3, 1, 2] true = Except.ok v
          ∧ v ∈ ([3, 1, 2] : List ℚ) ∧ ∀ y ∈ ([3, 1, 2] : List ℚ), v ≤ y)
    ∧ (∃ v, calc_percentile 100 [3, 1, 2] true = Except.ok v
          ∧ v ∈ ([3, 1, 2] : List ℚ) ∧ ∀ y ∈ ([3, 1, 2] : List ℚ), y ≤ v)) :=
  ⟨by simp, claim_C5_percentile_extremes [3, 1, 2] (by simp)⟩

/-- The DataField state touched by thresholding: grid extents, the cell
map, the flattened row-major vector and the cached interface topology. -/
structure DataField where
  nz : Nat
  nx : Nat
  data_map : Nat → Nat → ℚ
  data_vector : List ℚ
  _cell_interfaces : List (Nat × Nat)

/-- Row-major flattening, as computed by `scipy.ravel`. -/
def ravel (nz nx : Nat) (g : Nat → Nat → ℚ) : List ℚ :=
  (List.range nz).flatMap (fun z => (List.range nx).map (fun x => g z x))

/-- Embedding of `DataField.threshold_data`: the two masked assignments are
applied in sequence (the max-side test reads the map already updated by the
min-side test), then the flattened vector is refreshed; the grid extents
and the cached interface topology are untouched. -/
def threshold_data (f : DataField) (min_value max_value : Option ℚ) (repl : ℚ) :
    DataField :=
  let m1 : Nat → Nat → ℚ := fun z x =>
    match min_value with
    | some mv => if f.data_map z x ≤ mv then repl else f.data_map z x
    | none => f.data_map z x
  let m2 : Nat → Nat → ℚ := fun z x =>
    match max_value with
    | some mv => if mv ≤ m1 z x then repl else m1 z x
    | none => m1 z x
  { f with data_map := m2, data_vector := ravel f.nz f.nx m2 }

/-- C7: `threshold_data` replaces every cell whose original value is below
or at `min_value`, or at or above `max_value` (skipping omitted bounds),
with `repl` and leaves every other cell unchanged; afterwards `data_vector`
is the row-major flattening of the mutated map, and `nz`, `nx` and the
cell-interface topology are unchanged. -/
theorem claim_C7_threshold (f : DataField) (min_value max_value : Option ℚ)
    (repl : ℚ) :
    (∀ z x, (threshold_data f min_value max_value repl).data_map z x =
      match min_value, max_value with
      | none, none => f.data_map z x
      | some mv, none => if f.data_map z x ≤ mv then repl else f.data_map z x
      | none, some mv => if mv ≤ f.data_map z x then repl else f.data_map z x
      | some mv, some mv' =>
          if f.data_map z x ≤ mv ∨ mv' ≤ f.data_map z x then repl
          else f.data_map z x)
    ∧ (threshold_data f min_value max_value repl).data_vector
        = ravel f.nz f.nx (threshold_data f min_value max_value repl).data_map
    ∧ (threshold_data f min_value max_value repl).nz = f.nz
    ∧ (threshold_data f min_value max_value repl).nx = f.nx
    ∧ (threshold_data f min_value max_value repl)._cell_interfaces
        = f._cell_interfaces := by
  refine ⟨?_, rfl, rfl, rfl, rfl⟩
  intro z x
  rcases min_value with _ | mv <;> rcases max_value with _ | mv'
  · rfl
  · rfl
  · rfl
  · show (if mv' ≤ (if f.data_map z x ≤ mv then repl else f.data_map z x) then repl
        else (if f.data_map z x ≤ mv then repl else f.data_map z x))
      = if f.data_map z x ≤ mv ∨ mv' ≤ f.data_map z x then repl
        else f.data_map z x
    by_cases h1 : f.data_map z x ≤ mv
    · rw [if_pos h1, if_pos (Or.inl h1)]
      by_cases h2 : mv' ≤ repl
      · rw [if_pos h2]
      · rw [if_neg h2]
    · rw [if_neg h1]
      by_cases h2 : mv' ≤ f.data_map z x
      · rw [if_pos h2, if_pos (Or.inr h2)]
      · rw [if_neg h2, if_neg (by tauto)]

/-- Embedding of `get_data_vect`; Python strings are modelled as character
lists and `direction.lower()` as mapping `Char.toLower`. The 1-based start
index is clamped into the grid before the row/column slice; any other
direction raises `ValueError`. -/
def get_data_vect (nz nx : Nat) (data_map : Nat → Nat → ℚ) (direction : List Char)
    (start_id : Int) : Except PyErr (List ℚ) :=
  if direction.map Char.toLower = ['x'] then
    let sid : Int := if start_id ≥ (nz : Int) then (nz : Int)
      else if start_id ≤ 0 then 1 else start_id
    Except.ok ((List.range nx).map (fun ix => data_map (sid - 1).toNat ix))
  else if direction.map Char.toLower = ['z'] then
    let sid : Int := if start_id ≥ (nx : Int) then (nx : Int)
      else if start_id ≤ 0 then 1 else start_id
    Except.ok ((List.range nz).map (fun iz => data_map iz (sid - 1).toNat))
  else Except.error PyErr.valueError

/-- The branchy clamp of `get_data_vect` equals clamping into [1, n]. -/
theorem clamp_eq (n : Nat) (sid : Int) (h : 1 ≤ n) :
    ((if sid ≥ (n : Int) then (n : Int) else if sid ≤ 0 then 1 else sid) - 1).toNat
      = (max 1 (min sid (n : Int))).toNat - 1 := by
  by_cases h1 : sid ≥ (n : Int)
  · rw [if_pos h1]
    omega
  · rw [if_neg h1]
    by_cases h2 : sid ≤ 0
    · rw [if_pos h2]
      omega
    · rw [if_neg h2]
      omega

/-- C8: for a grid with at least one row and column, `get_data_vect` with
direction x (case-insensitively) returns the full row whose 1-based index
is `start_id` clamped into [1, nz], and with direction z the full column at
the index clamped into [1, nx]; for these directions it never raises,
however far out of range `start_id` is. -/
theorem claim_C8_get_data_vect (nz nx : Nat) (g : Nat → Nat → ℚ)
    (d : List Char) (sid : Int) (hz : 1 ≤ nz) (hx : 1 ≤ nx) :
    (d.map Char.toLower = ['x'] → get_data_vect nz nx g d sid
        = Except.ok ((List.range nx).map
            (fun ix => g ((max 1 (min sid (nz : Int))).toNat - 1) ix)))
    ∧ (d.map Char.toLower = ['z'] → get_data_vect nz nx g d sid
        = Except.ok ((List.range nz).map
            (fun iz => g iz ((max 1 (min sid (nx : Int))).toNat - 1)))) := by
  constructor
  · intro hd
    unfold get_data_vect
    rw [if_pos hd]
    show Except.ok ((List.range nx).map (fun ix =>
      g ((if sid ≥ (nz : Int) then (nz : Int) else if sid ≤ 0 then 1 else sid) - 1).toNat ix)) = _
    rw [clamp_eq nz sid hz]
  · intro hd
    unfold get_data_vect
    rw [if_neg (by rw [hd]; decide), if_pos hd]
    show Except.ok ((List.range nz).map (fun iz =>
      g iz ((if sid ≥ (nx : Int) then (nx : Int) else if sid ≤ 0 then 1 else sid) - 1).toNat)) = _
    rw [clamp_eq nx sid hx]

theorem claim_C8_witness :
    1 ≤ 2 ∧ 1 ≤ 2 ∧ (['X'].map Char.toLower = ['x'])
    ∧ get_data_vect 2 2 (fun _ _ => (7 : ℚ)) ['X'] (-5)
        = Except.ok ((List.range 2).map
            (fun ix => (fun _ _ => (7 : ℚ)) ((max 1 (min (-5) ((2 : Nat) : Int))).toNat - 1) ix)) :=
  ⟨by decide, by decide, by decide,
    (claim_C8_get_data_vect 2 2 (fun _ _ => 7) ['X'] (-5) (by decide) (by decide)).1
      (by decide)⟩
